import Mathlib

/-!
Verification development for the tagged-block extraction and diff-reconstruction
engine of the yozora-diff-kessan repository (the parseTags module and the
SectionViewer heading filter).

JavaScript strings are modelled as `List Char`.  Each of the module-level
regular expressions of the source

  editBlockRegex    = /<edit\s+(\d+)\s+Desc>\s*([\s\S]*?)<\/edit\s+\1\s+Desc>/g
  clusterBlockRegex = /<Cluster\s+(\d+)\s+Desc>\s*([\s\S]*?)<\/Cluster\s+\1\s+Desc>/g
  addDelRegex       = /<(add|del)>([\s\S]*?)<\/(add|del backref)>/g
  editWrapperRegex  = /<edit\s+(\d+)[^>]*>([\s\S]*?)<\/edit\s+\1\s*>/g

is hand-compiled into an executable anchored matcher (`tryAddDelM`,
`tryBlockM`, `tryEditWrapperM`); the `exec`-in-a-while-loop protocol of the
source (with the `g` flag: each attempt starts at `lastIndex`, a failed
attempt advances the scan position by one, a successful match advances
`lastIndex` to the match end, and a final failed `exec` resets `lastIndex`
to 0) is modelled by the structural scanner `scanPosWith`.  All definitions
are executable so that concrete inputs evaluate by `decide`.
-/

set_option maxRecDepth 10000

namespace YozoraDiff

/-- ECMAScript `\s` (WhiteSpace ∪ LineTerminator), also the character class
removed by `String.prototype.trim`. -/
def jsWs (c : Char) : Bool :=
  c = ' ' || c = '\t' || c = '\n' || c = '\r' || c = '\x0b' || c = '\x0c' ||
  c = ' ' || c = ' ' ||
  (' ' ≤ c && c ≤ ' ') ||
  c = ' ' || c = ' ' || c = ' ' || c = ' ' ||
  c = '　' || c = '﻿'

/-- `String.prototype.trim`. -/
def trimJS (l : List Char) : List Char :=
  ((l.dropWhile jsWs).reverse.dropWhile jsWs).reverse

/-- `value.replace(/\s+/g, " ")`: collapse every whitespace run to one space.
The boolean argument records whether the previous character was whitespace. -/
def collapseWsAux : Bool → List Char → List Char
  | _, [] => []
  | prevWs, c :: rest =>
    if jsWs c then
      if prevWs then collapseWsAux true rest else ' ' :: collapseWsAux true rest
    else c :: collapseWsAux false rest

/-- `normalizeWhitespace` of the source: collapse whitespace runs, then trim. -/
def normalizeWhitespace (l : List Char) : List Char :=
  trimJS (collapseWsAux false l)

/-- `Number.parseInt(digits, 10)` on a string of ASCII digits. -/
def parseIntDigits (l : List Char) : Nat :=
  l.foldl (fun a c => a * 10 + (c.toNat - '0'.toNat)) 0

/-- Strip `pat` from the front of `s`; `some rest` iff `s = pat ++ rest`. -/
def dropStart : List Char → List Char → Option (List Char)
  | [], s => some s
  | _ :: _, [] => none
  | p :: ps, c :: cs => if p = c then dropStart ps cs else none

/-- First occurrence of the literal `pat` in `s`: `some (before, after)` with
`s = before ++ pat ++ after`, `before` shortest possible (leftmost match). -/
def splitOnSub (pat : List Char) : List Char → Option (List Char × List Char)
  | [] => (dropStart pat []).map (fun r => ([], r))
  | c :: cs =>
    match dropStart pat (c :: cs) with
    | some r => some ([], r)
    | none => (splitOnSub pat cs).map (fun (b, a) => (c :: b, a))

/-- `s.includes(pat)`. -/
def containsSub (pat s : List Char) : Bool :=
  (splitOnSub pat s).isSome

/-- Leftmost anchored-success position of `tryC`, as used for the lazy body
capture `([\s\S]*?)` followed by a closing-tag pattern: `some (k, n)` means
the closing pattern first matches at offset `k`, consuming `n` characters. -/
def searchClose (tryC : List Char → Option Nat) : List Char → Option (Nat × Nat)
  | [] => (tryC []).map (fun n => (0, n))
  | c :: cs =>
    match tryC (c :: cs) with
    | some n => some (0, n)
    | none => (searchClose tryC cs).map (fun (k, n) => (k + 1, n))

/-! ### The generic `exec`-loop scanner -/

/-- One match of a global regex: absolute start position, captured payload,
and total matched length. -/
structure RawMatch (α : Type) where
  start : Nat
  payload : α
  len : Nat
  deriving DecidableEq, Repr

/-- All matches of a global regex over a string, as produced by repeated
`exec`: `skip` characters are first passed over without an attempt (the
initial `lastIndex`), then an anchored attempt `tryM` is made at every
position; a success at `p` of length `n` yields a match and resumes the scan
at `p + n` (the new `lastIndex`).  `pos` is the absolute position of the head
of the list argument. -/
def scanPosWith (tryM : List Char → Option (α × Nat)) :
    List Char → Nat → Nat → List (RawMatch α)
  | [], _, _ => []
  | _ :: rest, k + 1, p => scanPosWith tryM rest k (p + 1)
  | c :: rest, 0, p =>
    match tryM (c :: rest) with
    | some (a, n) => ⟨p, a, n⟩ :: scanPosWith tryM rest (n - 1) (p + 1)
    | none => scanPosWith tryM rest 0 (p + 1)

/-! ### addDelRegex -/

def openAdd : List Char := "<add>".data
def closeAdd : List Char := "</add>".data
def openDel : List Char := "<del>".data
def closeDel : List Char := "</del>".data

/-- Anchored attempt of `addDelRegex` (`<(add|del)>([\s\S]*?)<\/\1>`): the
payload is (isAdd, captured content), the length is the full match length.
The lazy body capture stops at the first occurrence of the matching closing
tag; with no closing tag there is no match at this position. -/
def tryAddDelM (s : List Char) : Option ((Bool × List Char) × Nat) :=
  match dropStart openAdd s with
  | some rest =>
    match splitOnSub closeAdd rest with
    | some (content, _) => some ((true, content), 5 + content.length + 6)
    | none => none
  | none =>
    match dropStart openDel s with
    | some rest =>
      match splitOnSub closeDel rest with
      | some (content, _) => some ((false, content), 5 + content.length + 6)
      | none => none
    | none => none

/-- The `addDelRegex.exec` loop over `raw`, from `lastIndex = 0`. -/
def addDelMatches (raw : List Char) : List (RawMatch (Bool × List Char)) :=
  scanPosWith tryAddDelM raw 0 0

/-! ### DiffSegment and toDiffSegments -/

inductive SegType
  | text
  | add
  | del
  deriving DecidableEq, Repr

structure DiffSegment where
  type : SegType
  content : List Char
  deriving DecidableEq, Repr

/-- The segment-building loop of `toDiffSegments`: walk the match list with
the local `lastIndex` variable `li`; the slice strictly between `li` and the
next match becomes a `text` segment only when non-blank after trimming, each
match becomes an `add`/`del` segment with the untrimmed captured content, and
the trailing slice is treated like a gap. -/
def segBuild (raw : List Char) : Nat → List (RawMatch (Bool × List Char)) →
    List DiffSegment
  | li, [] =>
    if 0 < (trimJS (raw.drop li)).length then [⟨SegType.text, raw.drop li⟩] else []
  | li, m :: ms =>
    (if li < m.start then
       if 0 < (trimJS ((raw.take m.start).drop li)).length then
         [⟨SegType.text, (raw.take m.start).drop li⟩]
       else []
     else []) ++
    ⟨if m.payload.1 then SegType.add else SegType.del, m.payload.2⟩ ::
    segBuild raw (m.start + m.len) ms

/-- `toDiffSegments` of the source. -/
def toDiffSegments (raw : List Char) : List DiffSegment :=
  segBuild raw 0 (addDelMatches raw)

example :
    toDiffSegments "pre<add>X</add>mid<del>Y</del>post".data =
      [⟨SegType.text, "pre".data⟩, ⟨SegType.add, "X".data⟩,
       ⟨SegType.text, "mid".data⟩, ⟨SegType.del, "Y".data⟩,
       ⟨SegType.text, "post".data⟩] := by decide

example :
    toDiffSegments "<add>X</add>   <del>Y</del>".data =
      [⟨SegType.add, "X".data⟩, ⟨SegType.del, "Y".data⟩] := by decide

/-! ### editBlockRegex / clusterBlockRegex -/

/-- `\s+` of the tag grammar: a non-empty maximal whitespace run (a shorter
run would leave a whitespace character where the next, disjoint character
class is required, so greedy matching is deterministic here); returns
(consumed length, rest). -/
def reqWs (s : List Char) : Option (Nat × List Char) :=
  if (s.takeWhile jsWs).length = 0 then none
  else some ((s.takeWhile jsWs).length, s.drop (s.takeWhile jsWs).length)

/-- `(\d+)` of the block grammar: a non-empty maximal digit run (followed by
`\s`, disjoint, so deterministic); returns (digits, rest). -/
def reqDigits (s : List Char) : Option (List Char × List Char) :=
  if (s.takeWhile Char.isDigit).length = 0 then none
  else some (s.takeWhile Char.isDigit, s.drop (s.takeWhile Char.isDigit).length)

/-- Anchored attempt of the closing pattern `<\/Kind\s+\1\s+Desc>` of a block
regex, for captured index digits `d`: the backreference demands the exact
digit string `d`.  Returns the consumed length. -/
def tryBlockCloseM (kind d : List Char) (s : List Char) : Option Nat :=
  match dropStart ('<' :: '/' :: kind) s with
  | none => none
  | some r1 =>
  match reqWs r1 with
  | none => none
  | some (w1, r2) =>
  match dropStart d r2 with
  | none => none
  | some r3 =>
  match reqWs r3 with
  | none => none
  | some (w2, _) =>
  match dropStart "Desc>".data ((r3.drop w2 : List Char)) with
  | none => none
  | some _ => some (2 + kind.length + w1 + d.length + w2 + 5)

/-- Anchored attempt of a block regex
`<Kind\s+(\d+)\s+Desc>\s*([\s\S]*?)<\/Kind\s+\1\s+Desc>`.
The `\s*` after the opening tag is maximal (the closing pattern starts with
`<`, never whitespace, so shrinking it cannot create a closing match).  The
lazy body capture ends at the first position where the closing pattern (with
the identical index digits) matches; if there is none the attempt fails.
The payload is (digits, body, body offset inside the match). -/
def tryBlockM (kind : List Char) (s : List Char) :
    Option ((List Char × List Char × Nat) × Nat) :=
  match dropStart ('<' :: kind) s with
  | none => none
  | some r1 =>
  match reqWs r1 with
  | none => none
  | some (w1, r2) =>
  match reqDigits r2 with
  | none => none
  | some (d, r3) =>
  match reqWs r3 with
  | none => none
  | some (w2, r4) =>
  match dropStart "Desc>".data r4 with
  | none => none
  | some r5 =>
  match searchClose (tryBlockCloseM kind d) (r5.drop (r5.takeWhile jsWs).length) with
  | none => none
  | some (k, clen) =>
    some ((d, (r5.drop (r5.takeWhile jsWs).length).take k,
           1 + kind.length + w1 + d.length + w2 + 5 + (r5.takeWhile jsWs).length),
          1 + kind.length + w1 + d.length + w2 + 5 + (r5.takeWhile jsWs).length + k + clen)

/-- The `editBlockRegex.exec` loop: (start, (digits, body, bodyOff), len). -/
def editBlockMatchesPos (raw : List Char) :
    List (RawMatch (List Char × List Char × Nat)) :=
  scanPosWith (tryBlockM "edit".data) raw 0 0

/-- The Block Extractor output of the Stage-1 scanner: (digits, body). -/
def editBlockMatches (raw : List Char) : List (List Char × List Char) :=
  (editBlockMatchesPos raw).map (fun m => (m.payload.1, m.payload.2.1))

/-- The `clusterBlockRegex.exec` loop. -/
def clusterBlockMatches (raw : List Char) : List (List Char × List Char) :=
  (scanPosWith (tryBlockM "Cluster".data) raw 0 0).map
    (fun m => (m.payload.1, m.payload.2.1))

/-! ### editWrapperRegex -/

/-- Anchored attempt of the closing pattern `<\/edit\s+\1\s*>` for captured
digits `d`. -/
def tryWrapperCloseM (d : List Char) (s : List Char) : Option Nat :=
  match dropStart "</edit".data s with
  | none => none
  | some r1 =>
  match reqWs r1 with
  | none => none
  | some (w1, r2) =>
  match dropStart d r2 with
  | none => none
  | some r3 =>
  match dropStart ['>'] (r3.drop (r3.takeWhile jsWs).length) with
  | none => none
  | some _ => some (6 + w1 + d.length + (r3.takeWhile jsWs).length + 1)

/-- The greedy `(\d+)` of `editWrapperRegex` can backtrack: if no closing tag
matches the full digit run `D`, shorter prefixes are tried (the digits given
up are absorbed by the following `[^>]*`, leaving the end of the opening tag
unchanged).  For each candidate prefix, the lazy body stops at the first
closing-pattern occurrence.  Returns (digits kept, body, body length + close
length). -/
def tryWrapperDigits (D : List Char) (bodyRest : List Char) :
    Nat → Option (List Char × List Char × Nat)
  | 0 => none
  | dl + 1 =>
    match searchClose (tryWrapperCloseM (D.take (dl + 1))) bodyRest with
    | some (k, clen) => some (D.take (dl + 1), bodyRest.take k, k + clen)
    | none => tryWrapperDigits D bodyRest dl

/-- Anchored attempt of `editWrapperRegex`
`<edit\s+(\d+)[^>]*>([\s\S]*?)<\/edit\s+\1\s*>`.  The payload is
(captured digits, body).  The `[^>]*` is greedy but cannot cross a `>`, so
the opening tag always ends at the first `>` after the digits. -/
def tryEditWrapperM (s : List Char) : Option ((List Char × List Char) × Nat) :=
  match dropStart "<edit".data s with
  | none => none
  | some r1 =>
  match reqWs r1 with
  | none => none
  | some (w1, r2) =>
  match reqDigits r2 with
  | none => none
  | some (D, r3) =>
  match r3.drop (r3.takeWhile (fun c => c ≠ '>')).length with
  | '>' :: bodyRest =>
    match tryWrapperDigits D bodyRest D.length with
    | none => none
    | some (d, body, kclen) =>
      some ((d, body),
        5 + w1 + D.length + (r3.takeWhile (fun c => c ≠ '>')).length + 1 + kclen)
  | _ => none

/-- The `editWrapperRegex.exec` loop: the Edit-Wrapper Scanner's matches. -/
def editWrapperMatches (text : List Char) : List (List Char × List Char) :=
  (scanPosWith tryEditWrapperM text 0 0).map (fun m => (m.payload.1, m.payload.2))

/-! ### Field extraction and parseStage1 / parseStage2 -/

/-- `body.match(/【L】([\s\S]*?)(?=【|$)/)`: find the leftmost occurrence of
the label and capture lazily up to the next `【` or the end. -/
def fieldCapture (label : List Char) (body : List Char) : Option (List Char) :=
  (splitOnSub label body).map (fun p => p.2.takeWhile (fun c => c ≠ '【'))

/-- `body.match(/【(?:Investor Insight|Implication)】([\s\S]*?)(?=【|$)/)`:
the leftmost occurrence of either label spelling wins. -/
def insightCapture : List Char → Option (List Char)
  | [] => none
  | c :: cs =>
    match dropStart "【Investor Insight】".data (c :: cs) with
    | some after => some (after.takeWhile (fun x => x ≠ '【'))
    | none =>
      match dropStart "【Implication】".data (c :: cs) with
      | some after => some (after.takeWhile (fun x => x ≠ '【'))
      | none => insightCapture cs

structure Stage1Item where
  index : Nat
  fact : List Char
  insight : List Char
  deriving DecidableEq, Repr

/-- `parseStage1`; `none` models a `null`/`undefined` argument, and the
`!raw` guard also returns `[]` for the empty string. -/
def parseStage1 (raw : Option (List Char)) : List Stage1Item :=
  match raw with
  | none => []
  | some r =>
    if r.isEmpty then [] else
    (editBlockMatches r).map fun (d, body) =>
      { index := parseIntDigits d
        fact := normalizeWhitespace ((fieldCapture "【Fact】".data body).getD [])
        insight := normalizeWhitespace ((insightCapture body).getD []) }

structure Stage2Cluster where
  index : Nat
  theme : List Char
  summary : List Char
  investorInsight : List Char
  relatedEdits : List Nat
  deriving DecidableEq, Repr

/-- `body.split(/\n+/)`: pieces between maximal newline runs (empty pieces at
either end included, as in ECMAScript `split`).  The boolean is true while
skipping a newline run. -/
def splitNlGo : List Char → List Char → Bool → List (List Char)
  | [], _, true => [[]]
  | [], cur, false => [cur.reverse]
  | c :: rest, _, true =>
    if c = '\n' then splitNlGo rest [] true else splitNlGo rest [c] false
  | c :: rest, cur, false =>
    if c = '\n' then cur.reverse :: splitNlGo rest [] true
    else splitNlGo rest (c :: cur) false

def splitNewlineRuns (s : List Char) : List (List Char) :=
  splitNlGo s [] false

/-- `line.match(/\d+/g)`: the maximal digit runs of a line, in order. -/
def digitRunsGo : List Char → List Char → List (List Char)
  | [], run => if run.isEmpty then [] else [run.reverse]
  | c :: rest, run =>
    if c.isDigit then digitRunsGo rest (c :: run)
    else if run.isEmpty then digitRunsGo rest []
    else run.reverse :: digitRunsGo rest []

def digitRuns (s : List Char) : List (List Char) :=
  digitRunsGo s []

/-- The related-indices marker line content (該当する編集番号). -/
def relatedMarker : List Char := "該当する編集番号".data

/-- `parseStage2`. -/
def parseStage2 (raw : Option (List Char)) : List Stage2Cluster :=
  match raw with
  | none => []
  | some r =>
    if r.isEmpty then [] else
    (clusterBlockMatches r).map fun (d, body) =>
      let relatedLine := (splitNewlineRuns body).find? (containsSub relatedMarker)
      { index := parseIntDigits d
        theme := normalizeWhitespace ((fieldCapture "【Theme】".data body).getD [])
        summary := normalizeWhitespace ((fieldCapture "【Summary】".data body).getD [])
        investorInsight :=
          normalizeWhitespace ((fieldCapture "【Investor Insight】".data body).getD [])
        relatedEdits :=
          (relatedLine.map (fun line => (digitRuns line).map parseIntDigits)).getD [] }

/-! ### buildDiffRecords and computeDiffMetrics -/

structure ProcessedSentencePair where
  oldHeading : Option (List Char)
  newHeading : Option (List Char)
  processedSentencePair : Option (List Char)
  deriving DecidableEq, Repr

structure DiffRecord where
  editIndex : Nat
  sectionIndex : Nat
  oldHeading : Option (List Char)
  newHeading : Option (List Char)
  segments : List DiffSegment
  deriving DecidableEq, Repr

/-- The `pairs.forEach` body of `buildDiffRecords`: one record per
edit-wrapper match, before sorting. -/
def unsortedDiffRecords (pairs : List ProcessedSentencePair) : List DiffRecord :=
  (pairs.enum.map fun (pairIndex, pair) =>
    (editWrapperMatches (pair.processedSentencePair.getD [])).map fun (d, body) =>
      { editIndex := parseIntDigits d
        sectionIndex := pairIndex
        oldHeading := pair.oldHeading
        newHeading := pair.newHeading
        segments := toDiffSegments body }).flatten

/-- `buildDiffRecords`; the final `sort((a, b) => a.editIndex - b.editIndex)`
is ECMAScript's stable ascending sort, modelled by stable insertion sort. -/
def buildDiffRecords (pairs : Option (List ProcessedSentencePair)) :
    List DiffRecord :=
  match pairs with
  | none => []
  | some ps =>
    if ps.isEmpty then [] else
    (unsortedDiffRecords ps).insertionSort (fun a b => a.editIndex ≤ b.editIndex)

structure DiffMetrics where
  adds : Nat
  deletes : Nat
  edits : Nat
  deriving DecidableEq, Repr

/-- The per-segment branch of the `computeDiffMetrics` reduce: `add` bumps
`adds`, `del` bumps `deletes`, `text` is ignored. -/
def metricsSegStep (a : DiffMetrics) (seg : DiffSegment) : DiffMetrics :=
  match seg.type with
  | SegType.add => { a with adds := a.adds + 1 }
  | SegType.del => { a with deletes := a.deletes + 1 }
  | SegType.text => a

/-- One record of the `computeDiffMetrics` reduce: fold the segments, then
bump `edits` once per record. -/
def metricsRecordStep (acc : DiffMetrics) (record : DiffRecord) : DiffMetrics :=
  { record.segments.foldl metricsSegStep acc with
    edits := (record.segments.foldl metricsSegStep acc).edits + 1 }

/-- `computeDiffMetrics`: the reduce over records of the source. -/
def computeDiffMetrics (records : List DiffRecord) : DiffMetrics :=
  records.foldl metricsRecordStep ⟨0, 0, 0⟩

/-! ### SectionViewer: the Heading Filter -/

structure SectionContentRecord where
  index : Int
  oldHeading : Option (List Char)
  newHeading : Option (List Char)
  oldContent : Option (List Char)
  newContent : Option (List Char)
  deriving DecidableEq, Repr

/-- `isChapterOneHeading`: present (an actual string, not null/undefined) and
starting with the configured chapter prefix "1". -/
def isChapterOneHeading : Option (List Char) → Bool
  | none => false
  | some h => ['1'].isPrefixOf h

/-- `sectionMap.get i` where the map was filled by
`sections.forEach(s => map.set(s.index, s))`: the last section with a given
index wins. -/
def sectionMapGet (sections : List SectionContentRecord) (i : Int) :
    Option SectionContentRecord :=
  sections.foldl (fun acc s => if s.index = i then some s else acc) none

/-- `record.oldHeading ?? section?.oldHeading` of the record filter. -/
def effOldHeading (sections : List SectionContentRecord) (record : DiffRecord) :
    Option (List Char) :=
  match record.oldHeading with
  | some h => some h
  | none => (sectionMapGet sections (record.sectionIndex : Int)).bind (·.oldHeading)

/-- `record.newHeading ?? section?.newHeading` of the record filter. -/
def effNewHeading (sections : List SectionContentRecord) (record : DiffRecord) :
    Option (List Char) :=
  match record.newHeading with
  | some h => some h
  | none => (sectionMapGet sections (record.sectionIndex : Int)).bind (·.newHeading)

/-- The predicate of the `diffRecords?.filter` in `SectionViewer`. -/
def recordInScope (sections : List SectionContentRecord) (record : DiffRecord) :
    Bool :=
  isChapterOneHeading (effOldHeading sections record) &&
  isChapterOneHeading (effNewHeading sections record)

/-- `visibleSections` of `SectionViewer`. -/
def visibleSections (sections : List SectionContentRecord) :
    List SectionContentRecord :=
  sections.filter fun s =>
    isChapterOneHeading s.oldHeading && isChapterOneHeading s.newHeading

/-- `filteredDiffRecords` of `SectionViewer` (`diffRecords` is an optional
prop; `?? []`). -/
def filteredDiffRecords (sections : List SectionContentRecord)
    (diffRecords : Option (List DiffRecord)) : List DiffRecord :=
  match diffRecords with
  | none => []
  | some rs => rs.filter (recordInScope sections)

/-! ### Stateful variants: the module-level regexes carry a mutable
`lastIndex` that persists between invocations.  A call with the `g` flag
starts scanning at `lastIndex`; when the `exec` loop ends (a failed `exec`),
`lastIndex` is reset to 0.  An extractor that returns early on empty/absent
input never touches its regex, so the state passes through unchanged. -/

/-- `parseStage1` with explicit `editBlockRegex.lastIndex` threading. -/
def parseStage1S (raw : Option (List Char)) (li : Nat) :
    List Stage1Item × Nat :=
  match raw with
  | none => ([], li)
  | some r =>
    if r.isEmpty then ([], li) else
    (((scanPosWith (tryBlockM "edit".data) r li 0).map
        (fun m => (m.payload.1, m.payload.2.1))).map
      (fun (d, body) =>
        ({ index := parseIntDigits d
           fact := normalizeWhitespace ((fieldCapture "【Fact】".data body).getD [])
           insight := normalizeWhitespace ((insightCapture body).getD []) :
          Stage1Item })), 0)

/-- `parseStage2` with explicit `clusterBlockRegex.lastIndex` threading. -/
def parseStage2S (raw : Option (List Char)) (li : Nat) :
    List Stage2Cluster × Nat :=
  match raw with
  | none => ([], li)
  | some r =>
    if r.isEmpty then ([], li) else
    (((scanPosWith (tryBlockM "Cluster".data) r li 0).map
        (fun m => (m.payload.1, m.payload.2.1))).map
      (fun (d, body) =>
        let relatedLine := (splitNewlineRuns body).find? (containsSub relatedMarker)
        ({ index := parseIntDigits d
           theme := normalizeWhitespace ((fieldCapture "【Theme】".data body).getD [])
           summary := normalizeWhitespace ((fieldCapture "【Summary】".data body).getD [])
           investorInsight :=
             normalizeWhitespace ((fieldCapture "【Investor Insight】".data body).getD [])
           relatedEdits :=
             (relatedLine.map (fun line => (digitRuns line).map parseIntDigits)).getD [] :
          Stage2Cluster })), 0)

/-- `toDiffSegments` with explicit `addDelRegex.lastIndex` threading: the
regex scan starts at `li`, while the local gap variable `lastIndex` of the
source still starts at 0. -/
def toDiffSegmentsS (raw : List Char) (li : Nat) : List DiffSegment × Nat :=
  (segBuild raw 0 (scanPosWith tryAddDelM raw li 0), 0)

/-- The inner while-loop of one `forEach` step of `buildDiffRecords`: build a
record for each edit-wrapper match, threading `addDelRegex.lastIndex` through
the `toDiffSegments` calls. -/
def bodyRecordsS (pairIndex : Nat) (pair : ProcessedSentencePair) :
    List (List Char × List Char) → Nat → List DiffRecord × Nat
  | [], a => ([], a)
  | (d, body) :: rest, a =>
    let (segs, a1) := toDiffSegmentsS body a
    let (more, a2) := bodyRecordsS pairIndex pair rest a1
    ({ editIndex := parseIntDigits d
       sectionIndex := pairIndex
       oldHeading := pair.oldHeading
       newHeading := pair.newHeading
       segments := segs } :: more, a2)

/-- One pair of the `buildDiffRecords` loop, threading both
`editWrapperRegex.lastIndex` (`liW`) and `addDelRegex.lastIndex` (`liA`);
the pair's `exec` loop runs to completion, resetting `liW` to 0. -/
def pairRecordsS (pairIndex : Nat) (pair : ProcessedSentencePair)
    (liW liA : Nat) : List DiffRecord × Nat × Nat :=
  let text := pair.processedSentencePair.getD []
  let ms := (scanPosWith tryEditWrapperM text liW 0).map
    (fun m => (m.payload.1, m.payload.2))
  let (recs, liA1) := bodyRecordsS pairIndex pair ms liA
  (recs, 0, liA1)

/-- The `forEach` of `buildDiffRecords`, threading both regex states. -/
def buildRecsS : Nat → List ProcessedSentencePair → Nat → Nat →
    List DiffRecord × Nat × Nat
  | _, [], liW, liA => ([], liW, liA)
  | i, pair :: rest, liW, liA =>
    let (recs, liW1, liA1) := pairRecordsS i pair liW liA
    let (more, liW2, liA2) := buildRecsS (i + 1) rest liW1 liA1
    (recs ++ more, liW2, liA2)

/-- `buildDiffRecords` with explicit regex-state threading. -/
def buildDiffRecordsS (pairs : Option (List ProcessedSentencePair))
    (liW liA : Nat) : List DiffRecord × Nat × Nat :=
  match pairs with
  | none => ([], liW, liA)
  | some ps =>
    if ps.isEmpty then ([], liW, liA) else
    let (recs, liW1, liA1) := buildRecsS 0 ps liW liA
    (recs.insertionSort (fun a b => a.editIndex ≤ b.editIndex), liW1, liA1)

example :
    editBlockMatches "<edit 3 Desc>body</edit 3 Desc>".data =
      [("3".data, "body".data)] := by decide

example :
    editBlockMatches "<edit 3 Desc>x</edit 4 Desc>".data = [] := by decide

example :
    editWrapperMatches "<edit 7 Desc>a<add>X</add></edit 7>".data =
      [("7".data, "a<add>X</add>".data)] := by decide

example :
    parseStage1 (some "<edit 3 Desc>【Fact】A  B\n\n【Investor Insight】C</edit 3 Desc>".data) =
      [⟨3, "A B".data, "C".data⟩] := by decide

/-! ### Reassembly, gaps and the scan-position chain -/

/-- A segment with its markup restored: `add`/`del` segments get their tags
back, `text` segments are unchanged. -/
def reassembleSeg (seg : DiffSegment) : List Char :=
  match seg.type with
  | SegType.text => seg.content
  | SegType.add => openAdd ++ seg.content ++ closeAdd
  | SegType.del => openDel ++ seg.content ++ closeDel

def reassemble (segs : List DiffSegment) : List Char :=
  (segs.map reassembleSeg).flatten

/-- Concatenation of the segments' raw contents, ignoring type. -/
def joinContents (segs : List DiffSegment) : List Char :=
  (segs.map (·.content)).flatten

/-- The inter-match gaps of the `toDiffSegments` scan over `raw` (including
the leading gap of each match and the trailing slice). -/
def addDelGapsFrom (raw : List Char) :
    Nat → List (RawMatch (Bool × List Char)) → List (List Char)
  | li, [] => [raw.drop li]
  | li, m :: ms => ((raw.take m.start).drop li) :: addDelGapsFrom raw (m.start + m.len) ms

def addDelGaps (raw : List Char) : List (List Char) :=
  addDelGapsFrom raw 0 (addDelMatches raw)

/-- The matches of a scan are position-consistent: each starts at or after
`li`, and each successor starts at or after the previous match's end. -/
def chainFrom (li : Nat) : List (RawMatch α) → Prop
  | [] => True
  | m :: ms => li ≤ m.start ∧ chainFrom (m.start + m.len) ms

lemma dropStart_eq : ∀ {pat s r : List Char}, dropStart pat s = some r → s = pat ++ r := by
  intro pat
  induction pat with
  | nil =>
    intro s r h
    rw [dropStart] at h
    simpa using Option.some.inj h
  | cons p ps ih =>
    intro s r h
    cases s with
    | nil => rw [dropStart] at h; cases h
    | cons c cs =>
      rw [dropStart] at h
      by_cases hpc : p = c
      · subst hpc
        rw [if_pos rfl] at h
        simpa using ih h
      · rw [if_neg hpc] at h; cases h

lemma splitOnSub_eq : ∀ {pat s b a : List Char},
    splitOnSub pat s = some (b, a) → s = b ++ pat ++ a := by
  intro pat s
  induction s with
  | nil =>
    intro b a h
    rw [splitOnSub] at h
    cases hd : dropStart pat [] with
    | none => rw [hd] at h; cases h
    | some r =>
      rw [hd] at h
      simp only [Option.map_some', Option.some.injEq, Prod.mk.injEq] at h
      obtain ⟨hb, ha⟩ := h
      subst hb; subst ha
      simpa using dropStart_eq hd
  | cons c cs ih =>
    intro b a h
    rw [splitOnSub] at h
    cases hd : dropStart pat (c :: cs) with
    | some r =>
      rw [hd] at h
      simp only [Option.some.injEq, Prod.mk.injEq] at h
      obtain ⟨hb, ha⟩ := h
      subst hb; subst ha
      simpa using dropStart_eq hd
    | none =>
      rw [hd] at h
      cases hs : splitOnSub pat cs with
      | none => rw [hs] at h; cases h
      | some p =>
        obtain ⟨b0, a0⟩ := p
        rw [hs] at h
        simp only [Option.map_some', Option.some.injEq, Prod.mk.injEq] at h
        obtain ⟨hb, ha⟩ := h
        subst hb; subst ha
        simpa using ih hs

lemma searchClose_spec (tryC : List Char → Option Nat) :
    ∀ {s : List Char} {k n : Nat}, searchClose tryC s = some (k, n) →
      k ≤ s.length ∧ tryC (s.drop k) = some n := by
  intro s
  induction s with
  | nil =>
    intro k n h
    rw [searchClose] at h
    cases ht : tryC [] with
    | none => rw [ht] at h; cases h
    | some m =>
      rw [ht] at h
      simp only [Option.map_some', Option.some.injEq, Prod.mk.injEq] at h
      obtain ⟨hk, hn⟩ := h
      subst hn
      exact ⟨by omega, by rw [← hk]; simpa using ht⟩
  | cons c cs ih =>
    intro k n h
    rw [searchClose] at h
    cases ht : tryC (c :: cs) with
    | some m =>
      rw [ht] at h
      simp only [Option.some.injEq, Prod.mk.injEq] at h
      obtain ⟨hk, hn⟩ := h
      subst hn
      exact ⟨by omega, by rw [← hk]; simpa using ht⟩
    | none =>
      rw [ht] at h
      cases hs : searchClose tryC cs with
      | none => rw [hs] at h; cases h
      | some p =>
        obtain ⟨k0, n0⟩ := p
        rw [hs] at h
        simp only [Option.map_some', Option.some.injEq, Prod.mk.injEq] at h
        obtain ⟨hk, hn⟩ := h
        obtain ⟨hk0, htr⟩ := ih hs
        subst hn
        refine ⟨by simp; omega, ?_⟩
        rw [← hk, List.drop_succ_cons]
        exact htr

lemma scanPosWith_start_ge (tryM : List Char → Option (α × Nat)) :
    ∀ (s : List Char) (k p : Nat) (m : RawMatch α),
      m ∈ scanPosWith tryM s k p → p + k ≤ m.start := by
  intro s
  induction s with
  | nil => intro k p m h; simp [scanPosWith] at h
  | cons c rest ih =>
    intro k p m h
    cases k with
    | succ k0 =>
      have := ih k0 (p + 1) m (by simpa [scanPosWith] using h)
      omega
    | zero =>
      rw [scanPosWith] at h
      cases htry : tryM (c :: rest) with
      | some an =>
        rw [htry] at h
        rcases List.mem_cons.mp h with hm | hm
        · subst hm; simp
        · have := ih (an.2 - 1) (p + 1) m hm
          omega
      | none =>
        rw [htry] at h
        have := ih 0 (p + 1) m h
        omega

lemma scanPosWith_mem_tryM (tryM : List Char → Option (α × Nat)) :
    ∀ (s : List Char) (k p : Nat) (m : RawMatch α),
      m ∈ scanPosWith tryM s k p →
      tryM (s.drop (m.start - p)) = some (m.payload, m.len) := by
  intro s
  induction s with
  | nil => intro k p m h; simp [scanPosWith] at h
  | cons c rest ih =>
    intro k p m h
    cases k with
    | succ k0 =>
      rw [scanPosWith] at h
      have hge := scanPosWith_start_ge tryM rest k0 (p + 1) m h
      have hrw : m.start - p = (m.start - (p + 1)) + 1 := by omega
      rw [hrw, List.drop_succ_cons]
      exact ih k0 (p + 1) m h
    | zero =>
      rw [scanPosWith] at h
      cases htry : tryM (c :: rest) with
      | some an =>
        rw [htry] at h
        rcases List.mem_cons.mp h with hm | hm
        · subst hm
          simpa using htry
        · have hge := scanPosWith_start_ge tryM rest (an.2 - 1) (p + 1) m hm
          have hrw : m.start - p = (m.start - (p + 1)) + 1 := by omega
          rw [hrw, List.drop_succ_cons]
          exact ih (an.2 - 1) (p + 1) m hm
      | none =>
        rw [htry] at h
        have hge := scanPosWith_start_ge tryM rest 0 (p + 1) m h
        have hrw : m.start - p = (m.start - (p + 1)) + 1 := by omega
        rw [hrw, List.drop_succ_cons]
        exact ih 0 (p + 1) m h

lemma chainFrom_mono {li li2 : Nat} {ms : List (RawMatch α)}
    (h : chainFrom li ms) (hle : li2 ≤ li) : chainFrom li2 ms := by
  cases ms with
  | nil => trivial
  | cons m ms => exact ⟨le_trans hle h.1, h.2⟩

lemma scanPosWith_chainFrom (tryM : List Char → Option (α × Nat))
    (hn : ∀ {s : List Char} {a : α} {n : Nat}, tryM s = some (a, n) → 1 ≤ n) :
    ∀ (s : List Char) (k p : Nat), chainFrom (p + k) (scanPosWith tryM s k p) := by
  intro s
  induction s with
  | nil => intro k p; rw [scanPosWith]; trivial
  | cons c rest ih =>
    intro k p
    cases k with
    | succ k0 =>
      rw [scanPosWith]
      have h := ih k0 (p + 1)
      have hrw : p + 1 + k0 = p + (k0 + 1) := by omega
      rwa [hrw] at h
    | zero =>
      rw [scanPosWith]
      cases htry : tryM (c :: rest) with
      | some an =>
        obtain ⟨a, n⟩ := an
        refine ⟨by simp, ?_⟩
        have h := ih (n - 1) (p + 1)
        have hrw : p + 1 + (n - 1) = p + n := by
          have := hn htry
          omega
        rwa [hrw] at h
      | none =>
        exact chainFrom_mono (ih 0 (p + 1)) (by omega)

lemma chainFrom_le_start {li : Nat} {ms : List (RawMatch α)} (h : chainFrom li ms) :
    ∀ m ∈ ms, li ≤ m.start := by
  induction ms generalizing li with
  | nil => intro m hm; simp at hm
  | cons m0 ms ih =>
    intro m hm
    rcases List.mem_cons.mp hm with hm | hm
    · subst hm; exact h.1
    · exact le_trans (le_trans h.1 (Nat.le_add_right _ _)) (ih h.2 m hm)

lemma chainFrom_pairwise {li : Nat} {ms : List (RawMatch α)} (h : chainFrom li ms) :
    ms.Pairwise (fun m1 m2 => m1.start + m1.len ≤ m2.start) := by
  induction ms generalizing li with
  | nil => exact List.Pairwise.nil
  | cons m0 ms ih =>
    exact List.Pairwise.cons (chainFrom_le_start h.2) (ih h.2)

/-- The full text of an add/del match: the captured content with its tags. -/
def tagText (t : Bool) (c : List Char) : List Char :=
  (if t then openAdd else openDel) ++ c ++ (if t then closeAdd else closeDel)

lemma tryAddDelM_spec {s : List Char} {t : Bool} {c : List Char} {n : Nat}
    (h : tryAddDelM s = some ((t, c), n)) :
    n = 11 + c.length ∧ s.take n = tagText t c := by
  rw [tryAddDelM] at h
  cases hd : dropStart openAdd s with
  | some rest =>
    rw [hd] at h
    dsimp only at h
    cases hs : splitOnSub closeAdd rest with
    | none => rw [hs] at h; cases h
    | some p =>
      obtain ⟨content, after⟩ := p
      rw [hs] at h
      simp only [Option.some.injEq, Prod.mk.injEq] at h
      obtain ⟨⟨ht, hc⟩, hn⟩ := h
      subst ht; subst hc; subst hn
      have h1 := dropStart_eq hd
      have h2 := splitOnSub_eq hs
      refine ⟨by omega, ?_⟩
      have hsplit : s = (openAdd ++ content ++ closeAdd) ++ after := by
        rw [h1, h2]; simp
      have hlen : (openAdd ++ content ++ closeAdd).length = 5 + content.length + 6 := by
        have ho : openAdd.length = 5 := rfl
        have hc : closeAdd.length = 6 := rfl
        simp [ho, hc]; omega
      rw [hsplit, List.take_left' hlen, tagText]
      simp
  | none =>
    rw [hd] at h
    dsimp only at h
    cases hd2 : dropStart openDel s with
    | none => rw [hd2] at h; cases h
    | some rest =>
      rw [hd2] at h
      dsimp only at h
      cases hs : splitOnSub closeDel rest with
      | none => rw [hs] at h; cases h
      | some p =>
        obtain ⟨content, after⟩ := p
        rw [hs] at h
        simp only [Option.some.injEq, Prod.mk.injEq] at h
        obtain ⟨⟨ht, hc⟩, hn⟩ := h
        subst hc; subst hn
        have h1 := dropStart_eq hd2
        have h2 := splitOnSub_eq hs
        refine ⟨by omega, ?_⟩
        have hsplit : s = (openDel ++ content ++ closeDel) ++ after := by
          rw [h1, h2]; simp
        have hlen : (openDel ++ content ++ closeDel).length = 5 + content.length + 6 := by
          have ho : openDel.length = 5 := rfl
          have hc : closeDel.length = 6 := rfl
          simp [ho, hc]; omega
        rw [hsplit, List.take_left' hlen, tagText, ← ht]
        simp

lemma tryAddDelM_pos {s : List Char} {a : Bool × List Char} {n : Nat}
    (h : tryAddDelM s = some (a, n)) : 1 ≤ n := by
  obtain ⟨t, c⟩ := a
  have := (tryAddDelM_spec h).1
  omega

/-- Splitting a drop at an intermediate position. -/
lemma drop_split (l : List α) {a b : Nat} (h : a ≤ b) :
    l.drop a = (l.take b).drop a ++ l.drop b := by
  by_cases hb : b ≤ l.length
  · conv_lhs => rw [← List.take_append_drop b l]
    rw [List.drop_append_eq_append_drop]
    have : a - (l.take b).length = 0 := by
      rw [List.length_take]; omega
    rw [this, List.drop_zero]
  · have h1 : l.take b = l := List.take_of_length_le (by omega)
    have h2 : l.drop b = [] := List.drop_eq_nil_of_le (by omega)
    rw [h1, h2, List.append_nil]

/-- The payload of a non-`text` segment; `text` segments yield `none`. -/
def segPayload (s : DiffSegment) : Option (Bool × List Char) :=
  match s.type with
  | SegType.text => none
  | SegType.add => some (true, s.content)
  | SegType.del => some (false, s.content)

lemma segBuild_filterMap (raw : List Char) :
    ∀ (ms : List (RawMatch (Bool × List Char))) (li : Nat),
      (segBuild raw li ms).filterMap segPayload = ms.map (·.payload) := by
  intro ms
  induction ms with
  | nil =>
    intro li
    rw [segBuild]
    split
    · simp [segPayload]
    · simp
  | cons m ms ih =>
    intro li
    obtain ⟨start, ⟨t, c⟩, n⟩ := m
    rw [segBuild]
    rw [List.filterMap_append, List.filterMap_cons]
    have hgap : (List.filterMap segPayload
        (if li < start then
          if 0 < (trimJS ((raw.take start).drop li)).length then
            [(⟨SegType.text, (raw.take start).drop li⟩ : DiffSegment)]
          else []
        else [])) = [] := by
      split
      · split <;> simp [segPayload]
      · simp
    rw [hgap]
    cases t with
    | true => simp [segPayload, ih]
    | false => simp [segPayload, ih]

lemma segBuild_text_nonblank (raw : List Char) :
    ∀ (ms : List (RawMatch (Bool × List Char))) (li : Nat) (seg : DiffSegment),
      seg ∈ segBuild raw li ms → seg.type = SegType.text → trimJS seg.content ≠ [] := by
  intro ms
  induction ms with
  | nil =>
    intro li seg hmem _
    rw [segBuild] at hmem
    split at hmem
    · next htr =>
      rcases List.mem_singleton.mp hmem with rfl
      exact List.length_pos.mp htr
    · simp at hmem
  | cons m ms ih =>
    intro li seg hmem htype
    rw [segBuild] at hmem
    rcases List.mem_append.mp hmem with hg | hrest
    · split at hg
      · split at hg
        · next htr =>
          rcases List.mem_singleton.mp hg with rfl
          exact List.length_pos.mp htr
        · simp at hg
      · simp at hg
    · rcases List.mem_cons.mp hrest with rfl | htail
      · revert htype
        split <;> simp
      · exact ih _ seg htail htype

lemma segBuild_reassemble (raw : List Char) :
    ∀ (ms : List (RawMatch (Bool × List Char))) (li : Nat),
      chainFrom li ms →
      (∀ m ∈ ms, tryAddDelM (raw.drop m.start) = some (m.payload, m.len)) →
      (∀ g ∈ addDelGapsFrom raw li ms, g = [] ∨ trimJS g ≠ []) →
      reassemble (segBuild raw li ms) = raw.drop li := by
  intro ms
  induction ms with
  | nil =>
    intro li _ _ hgaps
    rw [segBuild]
    rcases hgaps (raw.drop li) (by rw [addDelGapsFrom]; exact List.mem_singleton.mpr rfl)
      with hnil | htr
    · rw [hnil]
      have : trimJS ([] : List Char) = [] := rfl
      rw [this]
      simp [reassemble]
    · rw [if_pos (List.length_pos.mpr htr)]
      simp [reassemble, reassembleSeg]
  | cons m ms ih =>
    intro li hchain hmem hgaps
    obtain ⟨start, ⟨t, c⟩, n⟩ := m
    have htry : tryAddDelM (raw.drop start) = some ((t, c), n) := by
      simpa using hmem _ (List.mem_cons_self _ _)
    obtain ⟨hn, htake⟩ := tryAddDelM_spec htry
    have hli : li ≤ start := hchain.1
    have hih : reassemble (segBuild raw (start + n) ms) = raw.drop (start + n) :=
      ih (start + n) hchain.2
        (fun m2 hm2 => hmem m2 (List.mem_cons_of_mem _ hm2))
        (fun g hg => hgaps g (by rw [addDelGapsFrom]; exact List.mem_cons_of_mem _ hg))
    have hih2 : (List.map reassembleSeg (segBuild raw (start + n) ms)).flatten =
        raw.drop (start + n) := hih
    have hdecomp : raw.drop li =
        ((raw.take start).drop li) ++ (tagText t c ++ raw.drop (start + n)) := by
      rw [drop_split raw hli]
      congr 1
      conv_lhs => rw [← List.take_append_drop n (raw.drop start)]
      rw [htake, List.drop_drop]
    have htag : reassembleSeg ⟨if t then SegType.add else SegType.del, c⟩ = tagText t c := by
      cases t <;> simp [reassembleSeg, tagText]
    have hgap := hgaps ((raw.take start).drop li)
      (by rw [addDelGapsFrom]; exact List.mem_cons_self _ _)
    rw [segBuild]
    rcases hgap with hnil | htr
    · rw [hnil] at hdecomp
      have hcond : (if li < start then
          if 0 < (trimJS ((raw.take start).drop li)).length then
            [(⟨SegType.text, (raw.take start).drop li⟩ : DiffSegment)]
          else []
        else []) = [] := by
        rw [hnil]
        have : trimJS ([] : List Char) = [] := rfl
        rw [this]
        split <;> simp
      rw [hcond]
      simp only [List.nil_append, reassemble, List.map_cons, List.flatten_cons]
      rw [htag, hih2, hdecomp]
      simp
    · have hlt : li < start := by
        rcases Nat.lt_or_ge li start with h | h
        · exact h
        · exfalso
          have hils : li = start := by omega
          have hdt : (raw.take start).drop start = [] :=
            List.drop_eq_nil_of_le (by rw [List.length_take]; omega)
          rw [hils, hdt] at htr
          exact htr rfl
      rw [if_pos hlt, if_pos (List.length_pos.mpr htr)]
      simp only [reassemble, List.map_append, List.map_cons, List.map_nil,
        List.flatten_append, List.flatten_cons, List.flatten_nil]
      rw [htag, hih2, hdecomp]
      simp [reassembleSeg]

lemma reqWs_spec {s : List Char} {k : Nat} {r : List Char}
    (h : reqWs s = some (k, r)) : r = s.drop k ∧ 1 ≤ k := by
  rw [reqWs] at h
  split at h
  · cases h
  · next hne =>
    simp only [Option.some.injEq, Prod.mk.injEq] at h
    obtain ⟨hk, hr⟩ := h
    refine ⟨by rw [← hr, hk], by omega⟩

lemma reqDigits_spec {s : List Char} {d r : List Char}
    (h : reqDigits s = some (d, r)) : r = s.drop d.length := by
  rw [reqDigits] at h
  split at h
  · cases h
  · simp only [Option.some.injEq, Prod.mk.injEq] at h
    obtain ⟨hd, hr⟩ := h
    rw [← hr, hd]

lemma tryBlockM_spec {kind s d body : List Char} {off n : Nat}
    (h : tryBlockM kind s = some ((d, body, off), n)) :
    body = (s.drop off).take body.length ∧ off + body.length ≤ n ∧ 1 ≤ n := by
  rw [tryBlockM] at h
  cases h1 : dropStart ('<' :: kind) s with
  | none => rw [h1] at h; cases h
  | some r1 =>
  rw [h1] at h
  dsimp only at h
  cases h2 : reqWs r1 with
  | none => rw [h2] at h; cases h
  | some p2 =>
  obtain ⟨w1, r2⟩ := p2
  rw [h2] at h
  dsimp only at h
  cases h3 : reqDigits r2 with
  | none => rw [h3] at h; cases h
  | some p3 =>
  obtain ⟨d0, r3⟩ := p3
  rw [h3] at h
  dsimp only at h
  cases h4 : reqWs r3 with
  | none => rw [h4] at h; cases h
  | some p4 =>
  obtain ⟨w2, r4⟩ := p4
  rw [h4] at h
  dsimp only at h
  cases h5 : dropStart "Desc>".data r4 with
  | none => rw [h5] at h; cases h
  | some r5 =>
  rw [h5] at h
  dsimp only at h
  cases h6 : searchClose (tryBlockCloseM kind d0) (r5.drop (r5.takeWhile jsWs).length) with
  | none => rw [h6] at h; cases h
  | some p6 =>
  obtain ⟨k, clen⟩ := p6
  rw [h6] at h
  dsimp only at h
  simp only [Option.some.injEq, Prod.mk.injEq] at h
  obtain ⟨⟨hd0, hbody, hoff⟩, hn⟩ := h
  obtain ⟨hk, _⟩ := searchClose_spec _ h6
  have hr1 : r1 = s.drop (kind.length + 1) := by
    have := dropStart_eq h1
    rw [this]
    have hl : ('<' :: kind).length = kind.length + 1 := by simp
    rw [← hl, List.drop_left]
  have hr2 : r2 = s.drop (kind.length + 1 + w1) := by
    rw [(reqWs_spec h2).1, hr1, List.drop_drop]
  have hr3 : r3 = s.drop (kind.length + 1 + w1 + d0.length) := by
    rw [reqDigits_spec h3, hr2, List.drop_drop]
  have hr4 : r4 = s.drop (kind.length + 1 + w1 + d0.length + w2) := by
    rw [(reqWs_spec h4).1, hr3, List.drop_drop]
  have hr5 : r5 = s.drop (kind.length + 1 + w1 + d0.length + w2 + 5) := by
    have hds := dropStart_eq h5
    have hlen : ("Desc>".data).length = 5 := rfl
    rw [hr4] at hds
    have : (s.drop (kind.length + 1 + w1 + d0.length + w2)).drop 5 = r5 := by
      rw [hds, ← hlen, List.drop_left]
    rw [← this, List.drop_drop]
  have hstep : (s.drop (kind.length + 1 + w1 + d0.length + w2 + 5)).drop
      (r5.takeWhile jsWs).length = r5.drop (r5.takeWhile jsWs).length := by
    rw [← hr5]
  have hr6 : r5.drop (r5.takeWhile jsWs).length = s.drop off := by
    rw [← hstep, List.drop_drop]
    congr 1
    omega
  have hblen : body.length = k := by
    rw [← hbody, List.length_take]
    exact Nat.min_eq_left hk
  refine ⟨?_, by omega, by omega⟩
  rw [hblen, ← hr6]
  exact hbody.symm

/-! ### Claim theorems -/

/-- C3: the Block Extractor yields one (index, body) result exactly for each
region whose opening and closing index tokens are textually identical:
`<edit 3 Desc>body</edit 3 Desc>` yields exactly the pair (3, "body") and
`parseStage1` one item of index 3; the mismatched pair
`<edit 3 Desc>x</edit 4 Desc>` yields zero blocks and zero items, without an
error. -/
theorem block_extractor_identical_indices :
    editBlockMatches "<edit 3 Desc>body</edit 3 Desc>".data =
      [("3".data, "body".data)] ∧
    parseStage1 (some "<edit 3 Desc>body</edit 3 Desc>".data) = [⟨3, [], []⟩] ∧
    editBlockMatches "<edit 3 Desc>x</edit 4 Desc>".data = [] ∧
    parseStage1 (some "<edit 3 Desc>x</edit 4 Desc>".data) = [] := by
  refine ⟨by decide, by decide, by decide, by decide⟩

/-- C9: for absent (`none`, modelling null/undefined) or empty input, every
extractor returns an empty collection rather than failing; the extractors
are total functions of their input, so no input raises. -/
theorem extractors_empty_input :
    parseStage1 none = [] ∧ parseStage1 (some []) = [] ∧
    parseStage2 none = [] ∧ parseStage2 (some []) = [] ∧
    buildDiffRecords none = [] ∧ buildDiffRecords (some []) = [] ∧
    toDiffSegments [] = [] ∧
    editBlockMatches [] = [] ∧ clusterBlockMatches [] = [] ∧
    editWrapperMatches [] = [] := by decide

lemma foldl_metricsSegStep (segs : List DiffSegment) :
    ∀ a : DiffMetrics,
      segs.foldl metricsSegStep a =
        ⟨a.adds + segs.countP (fun s => s.type == SegType.add),
         a.deletes + segs.countP (fun s => s.type == SegType.del),
         a.edits⟩ := by
  induction segs with
  | nil => intro a; simp
  | cons s segs ih =>
    intro a
    rw [List.foldl_cons, List.countP_cons, List.countP_cons, ih]
    cases hs : s.type <;>
      simp [metricsSegStep, hs, DiffMetrics.mk.injEq] <;> omega

lemma foldl_metricsRecordStep (records : List DiffRecord) :
    ∀ a : DiffMetrics,
      records.foldl metricsRecordStep a =
        ⟨a.adds + ((records.map (fun r => r.segments)).flatten).countP
            (fun s => s.type == SegType.add),
         a.deletes + ((records.map (fun r => r.segments)).flatten).countP
            (fun s => s.type == SegType.del),
         a.edits + records.length⟩ := by
  induction records with
  | nil => intro a; simp
  | cons r records ih =>
    intro a
    rw [List.foldl_cons, ih]
    simp [metricsRecordStep, foldl_metricsSegStep, List.countP_append,
      DiffMetrics.mk.injEq]
    refine ⟨by omega, by omega, by omega⟩

/-- C4: `computeDiffMetrics` returns `adds` = total number of `add` segments
across all records, `deletes` = total number of `del` segments, and `edits`
= the total number of records (so an edit touching two sections counts
twice); three records of one `add` and one `del` segment each (two of them
sharing an `editIndex`) yield `{adds := 3, deletes := 3, edits := 3}`. -/
theorem metrics_aggregator :
    (∀ records : List DiffRecord,
        computeDiffMetrics records =
          ⟨((records.map (fun r => r.segments)).flatten).countP
              (fun s => s.type == SegType.add),
           ((records.map (fun r => r.segments)).flatten).countP
              (fun s => s.type == SegType.del),
           records.length⟩) ∧
    computeDiffMetrics
        [⟨1, 0, none, none, [⟨SegType.add, "a".data⟩, ⟨SegType.del, "b".data⟩]⟩,
         ⟨1, 1, none, none, [⟨SegType.add, "c".data⟩, ⟨SegType.del, "d".data⟩]⟩,
         ⟨2, 2, none, none, [⟨SegType.add, "e".data⟩, ⟨SegType.del, "f".data⟩]⟩] =
      ⟨3, 3, 3⟩ := by
  constructor
  · intro records
    rw [computeDiffMetrics, foldl_metricsRecordStep]
    simp
  · decide

/-- C7: a section or diff record is in scope for the full-document comparison
view iff both its old heading and its new heading are present (actual
strings) and begin with the configured chapter prefix "1" (for a record, the
headings after the section fallback); a record with oldHeading
"2.1 Overview" is excluded and one with oldHeading "1. Business Overview"
and matching newHeading is included. -/
theorem heading_filter_scope :
    (∀ h : Option (List Char),
        isChapterOneHeading h = true ↔
          ∃ x, h = some x ∧ ['1'].isPrefixOf x = true) ∧
    (∀ (sections : List SectionContentRecord) (s : SectionContentRecord),
        s ∈ visibleSections sections ↔
          s ∈ sections ∧ isChapterOneHeading s.oldHeading = true ∧
          isChapterOneHeading s.newHeading = true) ∧
    (∀ (sections : List SectionContentRecord) (records : List DiffRecord)
        (r : DiffRecord),
        r ∈ filteredDiffRecords sections (some records) ↔
          r ∈ records ∧ isChapterOneHeading (effOldHeading sections r) = true ∧
          isChapterOneHeading (effNewHeading sections r) = true) ∧
    recordInScope []
        ⟨7, 0, some "2.1 Overview".data, some "1. Overview".data, []⟩ = false ∧
    recordInScope []
        ⟨7, 0, some "1. Business Overview".data,
         some "1. Business Overview".data, []⟩ = true := by
  refine ⟨?_, ?_, ?_, by decide, by decide⟩
  · intro h
    cases h with
    | none => simp [isChapterOneHeading]
    | some x => simp [isChapterOneHeading]
  · intro sections s
    simp [visibleSections, List.mem_filter, Bool.and_eq_true, and_assoc]
  · intro sections records r
    simp [filteredDiffRecords, List.mem_filter, recordInScope,
      Bool.and_eq_true, and_assoc]

/-- C10: in the Heading Filter's record test, the record's own non-null
headings take precedence even when an owning section entry exists; the
owning section's headings are consulted only for a heading the record
itself lacks; hence a record with both its own headings is filtered
independently of the sections collection. -/
theorem record_headings_precedence :
    (∀ (sections : List SectionContentRecord) (r : DiffRecord) (o : List Char),
        r.oldHeading = some o → effOldHeading sections r = some o) ∧
    (∀ (sections : List SectionContentRecord) (r : DiffRecord),
        r.oldHeading = none →
          effOldHeading sections r =
            (sectionMapGet sections (r.sectionIndex : Int)).bind
              (fun s => s.oldHeading)) ∧
    (∀ (sections : List SectionContentRecord) (r : DiffRecord) (nh : List Char),
        r.newHeading = some nh → effNewHeading sections r = some nh) ∧
    (∀ (sections : List SectionContentRecord) (r : DiffRecord),
        r.newHeading = none →
          effNewHeading sections r =
            (sectionMapGet sections (r.sectionIndex : Int)).bind
              (fun s => s.newHeading)) ∧
    (∀ (sections sections2 : List SectionContentRecord) (r : DiffRecord)
        (o nh : List Char),
        r.oldHeading = some o → r.newHeading = some nh →
        recordInScope sections r =
            (['1'].isPrefixOf o && ['1'].isPrefixOf nh) ∧
        recordInScope sections r = recordInScope sections2 r) := by
  refine ⟨?_, ?_, ?_, ?_, ?_⟩
  · intro sections r o h
    simp [effOldHeading, h]
  · intro sections r h
    simp [effOldHeading, h]
  · intro sections r nh h
    simp [effNewHeading, h]
  · intro sections r h
    simp [effNewHeading, h]
  · intro sections sections2 r o nh ho hn
    constructor
    · simp [recordInScope, effOldHeading, effNewHeading, ho, hn,
        isChapterOneHeading]
    · simp [recordInScope, effOldHeading, effNewHeading, ho, hn]

/-- Witness for C10 at a concrete record with its own headings and an owning
section whose headings differ: the section is ignored. -/
theorem record_headings_precedence_witness :
    recordInScope [⟨0, some "2 X".data, some "2 Y".data, none, none⟩]
        ⟨3, 0, some "1a".data, some "1b".data, []⟩ =
      (['1'].isPrefixOf "1a".data && ['1'].isPrefixOf "1b".data) ∧
    recordInScope [⟨0, some "2 X".data, some "2 Y".data, none, none⟩]
        ⟨3, 0, some "1a".data, some "1b".data, []⟩ =
      recordInScope [] ⟨3, 0, some "1a".data, some "1b".data, []⟩ :=
  record_headings_precedence.2.2.2.2
    [⟨0, some "2 X".data, some "2 Y".data, none, none⟩] []
    ⟨3, 0, some "1a".data, some "1b".data, []⟩ "1a".data "1b".data rfl rfl

/-- C5: the Segment Tokenizer emits add/del segments in scan order with the
literal (untrimmed) captured content — the non-text segments, in order, are
exactly the regex matches with their captures — and a gap becomes a `text`
segment only when non-blank after trimming; the two reference inputs behave
as specified. -/
theorem segment_tokenizer :
    toDiffSegments "pre<add>X</add>mid<del>Y</del>post".data =
      [⟨SegType.text, "pre".data⟩, ⟨SegType.add, "X".data⟩,
       ⟨SegType.text, "mid".data⟩, ⟨SegType.del, "Y".data⟩,
       ⟨SegType.text, "post".data⟩] ∧
    toDiffSegments "<add>X</add>   <del>Y</del>".data =
      [⟨SegType.add, "X".data⟩, ⟨SegType.del, "Y".data⟩] ∧
    (∀ raw : List Char,
        (toDiffSegments raw).filterMap segPayload =
          (addDelMatches raw).map (fun m => m.payload)) ∧
    (∀ (raw : List Char) (seg : DiffSegment),
        seg ∈ toDiffSegments raw → seg.type = SegType.text →
        trimJS seg.content ≠ []) := by
  refine ⟨by decide, by decide, ?_, ?_⟩
  · intro raw
    exact segBuild_filterMap raw (addDelMatches raw) 0
  · intro raw seg hmem
    exact segBuild_text_nonblank raw (addDelMatches raw) 0 seg hmem

/-- Witness for C5: the text segment "pre" produced from a concrete input is
non-blank after trimming. -/
theorem segment_tokenizer_witness :
    trimJS "pre".data ≠ [] :=
  segment_tokenizer.2.2.2 "pre<add>X</add>".data ⟨SegType.text, "pre".data⟩
    (by decide) rfl

/-- C1 is false as stated: concatenating a record's segment contents ignoring
type strips the add/del tag markup (and would also drop blank gaps), so it
does not reconstruct the edit-wrapper body.  Concretely, the single record
built from `<edit 1 x>a<add>X</add></edit 1>` has body `a<add>X</add>` but
its segment contents concatenate to `aX`. -/
theorem tokenization_not_lossless :
    editWrapperMatches "<edit 1 x>a<add>X</add></edit 1>".data =
      [("1".data, "a<add>X</add>".data)] ∧
    buildDiffRecords
        (some [⟨none, none, some "<edit 1 x>a<add>X</add></edit 1>".data⟩]) =
      [⟨1, 0, none, none, [⟨SegType.text, "a".data⟩, ⟨SegType.add, "X".data⟩]⟩] ∧
    joinContents [⟨SegType.text, "a".data⟩, ⟨SegType.add, "X".data⟩] ≠
      "a<add>X</add>".data := by
  refine ⟨by decide, by decide, by decide⟩

/-- C1 (amended): tokenization is lossless up to markup and blank gaps —
concatenating the segments with each add/del segment re-wrapped in its tags
reconstructs the tokenized input exactly, provided every inter-match gap
(including the trailing one) is empty or non-blank; purely-whitespace
non-empty gaps are the only loss. -/
theorem tokenization_lossless_amended :
    ∀ raw : List Char,
      (∀ g ∈ addDelGaps raw, g = [] ∨ trimJS g ≠ []) →
      reassemble (toDiffSegments raw) = raw := by
  intro raw hg
  have hchain : chainFrom 0 (addDelMatches raw) := by
    simpa using
      scanPosWith_chainFrom tryAddDelM (fun h => tryAddDelM_pos h) raw 0 0
  have hmem : ∀ m ∈ addDelMatches raw,
      tryAddDelM (raw.drop m.start) = some (m.payload, m.len) := by
    intro m hm
    simpa using scanPosWith_mem_tryM tryAddDelM raw 0 0 m hm
  simpa [toDiffSegments] using
    segBuild_reassemble raw (addDelMatches raw) 0 hchain hmem hg

/-- Witness for the amended C1 at a concrete input with a non-blank gap. -/
theorem tokenization_lossless_amended_witness :
    reassemble (toDiffSegments "pre<add>X</add>".data) = "pre<add>X</add>".data :=
  tokenization_lossless_amended "pre<add>X</add>".data (by decide)

lemma tryBlockM_pos {kind s : List Char} {a : List Char × List Char × Nat}
    {n : Nat} (h : tryBlockM kind s = some (a, n)) : 1 ≤ n := by
  obtain ⟨d, body, off⟩ := a
  exact (tryBlockM_spec h).2.2

/-- C6: Block Extractor matches are non-overlapping (each match ends at or
before the next one starts), each captured body is the slice of the input at
its recorded offset and lies inside its own match, and hence a body never
reaches a subsequent block's opening tag. -/
theorem block_extractor_nonoverlap :
    ∀ raw : List Char,
      (editBlockMatchesPos raw).Pairwise
        (fun m1 m2 => m1.start + m1.len ≤ m2.start) ∧
      (∀ m ∈ editBlockMatchesPos raw,
          m.payload.2.2 + m.payload.2.1.length ≤ m.len ∧
          m.payload.2.1 =
            (raw.drop (m.start + m.payload.2.2)).take m.payload.2.1.length) ∧
      (editBlockMatchesPos raw).Pairwise
        (fun m1 m2 =>
          m1.start + m1.payload.2.2 + m1.payload.2.1.length ≤ m2.start) := by
  intro raw
  have hchain : chainFrom 0 (editBlockMatchesPos raw) := by
    simpa using
      scanPosWith_chainFrom (tryBlockM "edit".data)
        (fun h => tryBlockM_pos h) raw 0 0
  have hpw := chainFrom_pairwise hchain
  have hmem : ∀ m ∈ editBlockMatchesPos raw,
      tryBlockM "edit".data (raw.drop m.start) = some (m.payload, m.len) := by
    intro m hm
    simpa using scanPosWith_mem_tryM (tryBlockM "edit".data) raw 0 0 m hm
  have hbody : ∀ m ∈ editBlockMatchesPos raw,
      m.payload.2.2 + m.payload.2.1.length ≤ m.len ∧
      m.payload.2.1 =
        (raw.drop (m.start + m.payload.2.2)).take m.payload.2.1.length := by
    intro m hm
    obtain ⟨start, ⟨d, body, off⟩, n⟩ := m
    have h := hmem _ hm
    obtain ⟨hslice, hle, _⟩ :=
      tryBlockM_spec (show tryBlockM "edit".data (raw.drop start) =
        some ((d, body, off), n) from h)
    refine ⟨hle, ?_⟩
    rw [List.drop_drop] at hslice
    simpa using hslice
  refine ⟨hpw, hbody, ?_⟩
  refine List.Pairwise.imp_of_mem ?_ hpw
  intro m1 m2 h1 h2 hR
  have := (hbody m1 h1).1
  omega

/-- Witness for C6 at a concrete two-block input: the first body "a" sits at
offset 13 inside its 28-character match. -/
theorem block_extractor_nonoverlap_witness :
    13 + ("a".data).length ≤ 28 ∧
    "a".data =
      (("<edit 1 Desc>a</edit 1 Desc><edit 2 Desc>b</edit 2 Desc>".data).drop
        (0 + 13)).take ("a".data).length :=
  (block_extractor_nonoverlap
      "<edit 1 Desc>a</edit 1 Desc><edit 2 Desc>b</edit 2 Desc>".data).2.1
    ⟨0, ("1".data, "a".data, 13), 28⟩ (by decide)

instance : IsTotal DiffRecord (fun a b => a.editIndex ≤ b.editIndex) :=
  ⟨fun a b => Nat.le_total a.editIndex b.editIndex⟩

instance : IsTrans DiffRecord (fun a b => a.editIndex ≤ b.editIndex) :=
  ⟨fun _ _ _ h1 h2 => Nat.le_trans h1 h2⟩

lemma filter_orderedInsert (n : Nat) (x : DiffRecord) :
    ∀ l : List DiffRecord,
      ((l.orderedInsert (fun a b => a.editIndex ≤ b.editIndex) x).filter
          (fun r => r.editIndex == n)) =
        if x.editIndex = n then
          x :: l.filter (fun r => r.editIndex == n)
        else l.filter (fun r => r.editIndex == n) := by
  intro l
  induction l with
  | nil =>
    by_cases hx : x.editIndex = n <;>
      simp [List.orderedInsert, List.filter_cons, beq_iff_eq, hx]
  | cons y l ih =>
    rw [List.orderedInsert]
    by_cases hr : x.editIndex ≤ y.editIndex
    · rw [if_pos hr]
      by_cases hx : x.editIndex = n
      · rw [if_pos hx]
        simp [List.filter_cons, beq_iff_eq, hx]
      · rw [if_neg hx]
        simp [List.filter_cons, beq_iff_eq, hx]
    · rw [if_neg hr]
      by_cases hx : x.editIndex = n
      · rw [if_pos hx]
        have hy : ¬(y.editIndex = n) := by omega
        rw [List.filter_cons, List.filter_cons]
        simp only [beq_iff_eq, hy, hx, if_pos, if_neg, decide_eq_true_eq]
        simp [hy, ih, hx]
      · rw [if_neg hx]
        rw [List.filter_cons, List.filter_cons]
        by_cases hy : y.editIndex = n <;> simp [beq_iff_eq, hy, ih, hx]

lemma filter_insertionSort (n : Nat) :
    ∀ l : List DiffRecord,
      ((l.insertionSort (fun a b => a.editIndex ≤ b.editIndex)).filter
          (fun r => r.editIndex == n)) =
        l.filter (fun r => r.editIndex == n) := by
  intro l
  induction l with
  | nil => rfl
  | cons x l ih =>
    rw [List.insertionSort, filter_orderedInsert, List.filter_cons]
    by_cases hx : x.editIndex = n
    · rw [if_pos hx, ih]
      simp [beq_iff_eq, hx]
    · rw [if_neg hx, ih]
      simp [beq_iff_eq, hx]

/-- C2: `buildDiffRecords` returns the per-section records sorted ascending
by `editIndex` (a permutation of the unsorted concatenation), and the sort is
stable — for every `editIndex` value the records with that index appear in
their original section-traversal order; for one section with `editIndex = 5`
and another with `editIndex = 2`, the 2-record precedes the 5-record in
either traversal order. -/
theorem diff_record_builder_sorted_stable :
    (∀ pairs : List ProcessedSentencePair,
        (buildDiffRecords (some pairs)).Sorted
          (fun a b : DiffRecord => a.editIndex ≤ b.editIndex)) ∧
    (∀ pairs : List ProcessedSentencePair,
        List.Perm (buildDiffRecords (some pairs)) (unsortedDiffRecords pairs)) ∧
    (∀ (pairs : List ProcessedSentencePair) (n : Nat),
        ((buildDiffRecords (some pairs)).filter (fun r => r.editIndex == n)) =
          ((unsortedDiffRecords pairs).filter (fun r => r.editIndex == n))) ∧
    buildDiffRecords
        (some [⟨some "h5".data, some "h5".data,
                some "<edit 5 x><add>a</add></edit 5>".data⟩,
               ⟨some "h2".data, some "h2".data,
                some "<edit 2 x><add>b</add></edit 2>".data⟩]) =
      [⟨2, 1, some "h2".data, some "h2".data, [⟨SegType.add, "b".data⟩]⟩,
       ⟨5, 0, some "h5".data, some "h5".data, [⟨SegType.add, "a".data⟩]⟩] ∧
    buildDiffRecords
        (some [⟨some "h2".data, some "h2".data,
                some "<edit 2 x><add>b</add></edit 2>".data⟩,
               ⟨some "h5".data, some "h5".data,
                some "<edit 5 x><add>a</add></edit 5>".data⟩]) =
      [⟨2, 0, some "h2".data, some "h2".data, [⟨SegType.add, "b".data⟩]⟩,
       ⟨5, 1, some "h5".data, some "h5".data, [⟨SegType.add, "a".data⟩]⟩] := by
  refine ⟨?_, ?_, ?_, by decide, by decide⟩
  · intro pairs
    cases pairs with
    | nil => simp [buildDiffRecords]
    | cons p ps =>
      simp only [buildDiffRecords, List.isEmpty_cons, Bool.false_eq_true,
        if_false]
      exact List.sorted_insertionSort _ _
  · intro pairs
    cases pairs with
    | nil => simp [buildDiffRecords, unsortedDiffRecords]
    | cons p ps =>
      simp only [buildDiffRecords, List.isEmpty_cons, Bool.false_eq_true,
        if_false]
      exact List.perm_insertionSort _ _
  · intro pairs n
    cases pairs with
    | nil => simp [buildDiffRecords, unsortedDiffRecords]
    | cons p ps =>
      simp only [buildDiffRecords, List.isEmpty_cons, Bool.false_eq_true,
        if_false]
      exact filter_insertionSort n _

lemma parseStage1S_state (raw : Option (List Char)) :
    (parseStage1S raw 0).2 = 0 := by
  cases raw with
  | none => rfl
  | some r =>
    simp only [parseStage1S]
    split <;> rfl

lemma parseStage2S_state (raw : Option (List Char)) :
    (parseStage2S raw 0).2 = 0 := by
  cases raw with
  | none => rfl
  | some r =>
    simp only [parseStage2S]
    split <;> rfl

lemma bodyRecordsS_run (i : Nat) (p : ProcessedSentencePair) :
    ∀ ms : List (List Char × List Char),
      bodyRecordsS i p ms 0 =
        (ms.map fun (d, body) =>
          ({ editIndex := parseIntDigits d
             sectionIndex := i
             oldHeading := p.oldHeading
             newHeading := p.newHeading
             segments := toDiffSegments body } : DiffRecord), 0) := by
  intro ms
  induction ms with
  | nil => rfl
  | cons db rest ih =>
    obtain ⟨d, body⟩ := db
    rw [bodyRecordsS]
    simp only [toDiffSegmentsS, toDiffSegments, addDelMatches, ih, List.map_cons]

lemma pairRecordsS_run (i : Nat) (p : ProcessedSentencePair) :
    pairRecordsS i p 0 0 =
      ((editWrapperMatches (p.processedSentencePair.getD [])).map fun (d, body) =>
        ({ editIndex := parseIntDigits d
           sectionIndex := i
           oldHeading := p.oldHeading
           newHeading := p.newHeading
           segments := toDiffSegments body } : DiffRecord), 0, 0) := by
  simp only [pairRecordsS, editWrapperMatches, bodyRecordsS_run]

lemma buildRecsS_run :
    ∀ (ps : List ProcessedSentencePair) (i : Nat),
      buildRecsS i ps 0 0 =
        (((ps.enumFrom i).map fun (pairIndex, pair) =>
            (editWrapperMatches (pair.processedSentencePair.getD [])).map
              fun (d, body) =>
                ({ editIndex := parseIntDigits d
                   sectionIndex := pairIndex
                   oldHeading := pair.oldHeading
                   newHeading := pair.newHeading
                   segments := toDiffSegments body } : DiffRecord)).flatten,
         0, 0) := by
  intro ps
  induction ps with
  | nil => intro i; rfl
  | cons p rest ih =>
    intro i
    rw [buildRecsS, pairRecordsS_run]
    simp only [ih, List.enumFrom, List.map_cons, List.flatten_cons]

lemma buildDiffRecordsS_run (pairs : Option (List ProcessedSentencePair)) :
    buildDiffRecordsS pairs 0 0 = (buildDiffRecords pairs, 0, 0) := by
  cases pairs with
  | none => rfl
  | some ps =>
    cases ps with
    | nil => rfl
    | cons p rest =>
      simp only [buildDiffRecordsS, buildDiffRecords, List.isEmpty_cons,
        Bool.false_eq_true, if_false]
      rw [buildRecsS_run]
      simp only [unsortedDiffRecords, List.enum]

/-- C8: every extractor is idempotent and deterministic across invocations,
including with the shared module-level global-flag regexes whose `lastIndex`
persists between calls: a full run either leaves the state untouched (early
return) or resets it to 0, so a second run from the first run's final state
returns the same output and state; the stateful semantics agree with the
pure extractors. -/
theorem extractors_idempotent :
    (∀ raw, parseStage1S raw (parseStage1S raw 0).2 = parseStage1S raw 0) ∧
    (∀ raw, parseStage2S raw (parseStage2S raw 0).2 = parseStage2S raw 0) ∧
    (∀ raw, toDiffSegmentsS raw (toDiffSegmentsS raw 0).2 = toDiffSegmentsS raw 0) ∧
    (∀ pairs,
        buildDiffRecordsS pairs (buildDiffRecordsS pairs 0 0).2.1
            (buildDiffRecordsS pairs 0 0).2.2 =
          buildDiffRecordsS pairs 0 0) ∧
    (∀ raw, (parseStage1S raw 0).1 = parseStage1 raw) ∧
    (∀ raw, (parseStage2S raw 0).1 = parseStage2 raw) ∧
    (∀ raw, (toDiffSegmentsS raw 0).1 = toDiffSegments raw) ∧
    (∀ pairs, (buildDiffRecordsS pairs 0 0).1 = buildDiffRecords pairs) := by
  refine ⟨?_, ?_, ?_, ?_, ?_, ?_, ?_, ?_⟩
  · intro raw
    rw [parseStage1S_state raw]
  · intro raw
    rw [parseStage2S_state raw]
  · intro raw
    rfl
  · intro pairs
    rw [buildDiffRecordsS_run]
    exact buildDiffRecordsS_run pairs
  · intro raw
    cases raw with
    | none => rfl
    | some r =>
      by_cases h : r.isEmpty <;>
        simp [parseStage1S, parseStage1, h, editBlockMatches, editBlockMatchesPos]
  · intro raw
    cases raw with
    | none => rfl
    | some r =>
      by_cases h : r.isEmpty <;>
        simp [parseStage2S, parseStage2, h, clusterBlockMatches]
  · intro raw
    rfl
  · intro pairs
    rw [buildDiffRecordsS_run]

/-! ### Evaluation checks of the regex embedding on corner cases -/

example :
    editWrapperMatches "<edit 12 a>body</edit 1>".data =
      [("1".data, "body".data)] := by decide

example :
    editWrapperMatches "<edit 12 a>body</edit 12>".data =
      [("12".data, "body".data)] := by decide

example :
    editBlockMatches "<edit 1 Desc>  x</edit 1 Desc>".data =
      [("1".data, "x".data)] := by decide

example :
    editBlockMatches "<edit 1 Desc>a</edit 2 Desc>b</edit 1 Desc>".data =
      [("1".data, "a</edit 2 Desc>b".data)] := by decide

example :
    toDiffSegments "<add>x<del>y</del>".data =
      [⟨SegType.text, "<add>x".data⟩, ⟨SegType.del, "y".data⟩] := by decide

example :
    toDiffSegments "<add>a<del>b</del>c</add>".data =
      [⟨SegType.add, "a<del>b</del>c".data⟩] := by decide

example :
    toDiffSegments "<ad<add>x</add>".data =
      [⟨SegType.text, "<ad".data⟩, ⟨SegType.add, "x".data⟩] := by decide

example :
    editWrapperMatches "<edit 1 a><edit 2 b>x</edit 2></edit 1>".data =
      [("1".data, "<edit 2 b>x</edit 2>".data)] := by decide

example :
    editWrapperMatches "<edit 1></edit 1>".data = [("1".data, [])] := by decide

example :
    parseStage2
        (some "<Cluster 1 Desc>【Theme】T\n該当する編集番号: 1, 3, 12\n</Cluster 1 Desc>".data) =
      [⟨1, "T 該当する編集番号: 1, 3, 12".data, [], [], [1, 3, 12]⟩] := by decide

example :
    editBlockMatches "<edit 1 Desc>   </edit 1 Desc>".data =
      [("1".data, [])] := by decide

end YozoraDiff
